import Mathlib

/-!
Verification of the fruit-salad demos: a shallow embedding of the two
interactive programs (a linked-list variant and a double-ended-queue
variant) that maintain an ordered sequence of fruit-name strings, together
with theorems about positional insertion, positional removal, shuffling,
rendering and random selection.

The sequence state is modelled as `List String` (front = head).  Console
printing is modelled by returning the rendered `String`; the random source
is modelled as an injected `Nat`-valued function or argument, reduced into
range with `%` exactly where the library call guarantees an in-range index.
-/

namespace FruitSalad

/-- Default element used with `List.getD`. -/
def dStr : String := ""

/-- Error taxonomy of the core operations. -/
inductive FruitError where
  | emptyCollection
  | invalidInput
deriving DecidableEq

/-- Model of Rust `str::trim`: drop leading and trailing whitespace. -/
def trimInput (s : String) : String :=
  String.mk (((s.data.dropWhile Char.isWhitespace).reverse.dropWhile Char.isWhitespace).reverse)

/-- Model of `LinkedList::pop_front` / `VecDeque::pop_front`. -/
def popFront : List String → Option (String × List String)
  | [] => none
  | x :: xs => some (x, xs)

/-- Model of `LinkedList::pop_back` / `VecDeque::pop_back`. -/
def popBack : List String → Option (String × List String)
  | [] => none
  | [x] => some (x, [])
  | x :: y :: xs =>
    match popBack (y :: xs) with
    | some (b, rest) => some (b, x :: rest)
    | none => none

/-- Model of `LinkedList::split_off`: first component keeps indices below
`p`, second component the rest. -/
def splitOff (s : List String) (p : Nat) : List String × List String :=
  (s.take p, s.drop p)

/-- Position dispatch of `add_fruit` in the linked-list program, after the
name has been validated and the position parsed: `p = 0` pushes front,
`p ≥ len` pushes back, otherwise split at `p`, push the new value on the
front half and re-append the back half. -/
def addGo (s : List String) (v : String) (p : Nat) : List String :=
  if p = 0 then
    v :: s
  else if s.length ≤ p then
    s ++ [v]
  else
    let parts := splitOff s p
    (parts.1 ++ [v]) ++ parts.2

/-- Full `add_fruit` of the linked-list program: reject a name that is
empty after trimming, treat an unparseable position (`none`) as a no-op,
otherwise dispatch on the parsed position. -/
def addFruit (s : List String) (nameInput : String) (posInput : Option Nat) : List String :=
  let fruitName := trimInput nameInput
  if fruitName.isEmpty then s
  else
    match posInput with
    | some p => addGo s fruitName p
    | none => s

/-- `remove_fruit` of the linked-list program, returning the operation
result together with the sequence state after the call: empty sequence is
rejected first; then `p = 0` pops the front, `p ≥ len - 1` pops the back,
otherwise split at `p`, pop the front of the back half and re-append. -/
def removeFruitSt (s : List String) (p : Nat) : Except FruitError String × List String :=
  if s.isEmpty then
    (Except.error FruitError.emptyCollection, s)
  else if p = 0 then
    match popFront s with
    | some (x, rest) => (Except.ok x, rest)
    | none => (Except.error FruitError.emptyCollection, s)
  else if s.length - 1 ≤ p then
    match popBack s with
    | some (x, rest) => (Except.ok x, rest)
    | none => (Except.error FruitError.emptyCollection, s)
  else
    let parts := splitOff s p
    match popFront parts.2 with
    | some (x, back) => (Except.ok x, parts.1 ++ back)
    | none => (Except.error FruitError.emptyCollection, parts.1)

/-- Model of `iter().collect::<Vec<_>>()`: push each element to the back
of a growing vector. -/
def collectToVec (s : List String) : List String :=
  s.foldl (fun acc x => acc ++ [x]) []

/-- Index chosen by the random source for a slice of length `n`: the
library call draws uniformly from `[0, n)`, modelled by reducing the raw
draw `r` modulo `n`. -/
def pickIndex (n r : Nat) : Nat :=
  r % n

/-- Model of `SliceRandom::choose`: `none` on an empty slice, otherwise
the element at the uniformly drawn index. -/
def chooseElem (v : List String) (r : Nat) : Option String :=
  if v.isEmpty then none
  else some (v.getD (pickIndex v.length r) dStr)

/-- `pick_random_fruit` of the linked-list program, returning the result
together with the (unchanged) sequence state: empty sequence is rejected
first; otherwise the elements are collected into a vector and one is
chosen at a uniformly drawn index. -/
def pickRandomFruit (s : List String) (r : Nat) : Except FruitError String × List String :=
  if s.isEmpty then
    (Except.error FruitError.emptyCollection, s)
  else
    match chooseElem (collectToVec s) r with
    | some x => (Except.ok x, s)
    | none => (Except.error FruitError.emptyCollection, s)

/-- `pick_random_fruit` of the vecdeque program (same body). -/
def vdPickRandomFruit (s : List String) (r : Nat) : Except FruitError String × List String :=
  if s.isEmpty then
    (Except.error FruitError.emptyCollection, s)
  else
    match chooseElem (collectToVec s) r with
    | some x => (Except.ok x, s)
    | none => (Except.error FruitError.emptyCollection, s)

/-- Model of `Vec::swap` as used by the shuffle: exchange the elements at
indices `i` and `j` (both in bounds whenever the shuffle calls it). -/
def swapAt (l : List String) (i j : Nat) : List String :=
  match l[i]?, l[j]? with
  | some a, some b => (l.set i b).set j a
  | _, _ => l

/-- The Fisher-Yates loop of `SliceRandom::shuffle`: for `i` from
`len - 1` down to `1`, swap index `i` with a uniform draw from
`[0, i + 1)` (the draw modelled as `f i % (i + 1)`). -/
def shuffleGo (f : Nat → Nat) : Nat → List String → List String
  | 0, l => l
  | i + 1, l => shuffleGo f i (swapAt l (i + 1) (f (i + 1) % (i + 1 + 1)))

/-- The shuffle step of `main`: collect into a vector, run the
Fisher-Yates loop, collect back (the conversions preserve order). -/
def shuffleList (f : Nat → Nat) (l : List String) : List String :=
  shuffleGo f (l.length - 1) (collectToVec l)

/-- The comma-separated body produced by the display loop: every element
except the last is indented and followed by a comma, the last is printed
bare with a newline. -/
def commaSep : List String → String
  | [] => ""
  | [x] => x ++ "\n"
  | x :: y :: xs => "   " ++ x ++ ", " ++ commaSep (y :: xs)

/-- The display loop of `print_fruit_salad`, tracking the running index
`i` against the full length `len`. -/
def renderLoop (len : Nat) : Nat → List String → String
  | _, [] => ""
  | i, x :: xs =>
    (if i ≠ len - 1 then "   " ++ x ++ ", " else x ++ "\n") ++ renderLoop len (i + 1) xs

/-- Rendering of the sequence by the linked-list program (the body after
the constant header line): an explicit empty marker when empty, otherwise
the display loop followed by a total-count line. -/
def printFruitSaladLL (fruit : List String) : String :=
  if fruit.isEmpty then "   (empty)\n"
  else
    renderLoop fruit.length 0 fruit ++ "   Total fruits: " ++ toString fruit.length ++ "\n"

/-- Rendering of the sequence by the vecdeque program (the body after the
constant header line): an explicit empty marker when empty, otherwise the
display loop; there is no count line. -/
def printFruitSaladVD (fruit : List String) : String :=
  if fruit.isEmpty then "   (empty)\n"
  else renderLoop fruit.length 0 fruit

/-- The position menu of the vecdeque program: input `1` means front,
input `2` means back, anything else is invalid. -/
inductive VChoice where
  | front
  | back
  | invalid
deriving DecidableEq

/-- Parse of the front/back menu answer in the vecdeque program. -/
def parseVChoice (s : String) : VChoice :=
  if trimInput s = "1" then VChoice.front
  else if trimInput s = "2" then VChoice.back
  else VChoice.invalid

/-- Position dispatch of `add_fruit` in the vecdeque program: push front,
push back, or (on an invalid answer) change nothing. -/
def vdAddGo (s : List String) (v : String) : VChoice → List String
  | VChoice.front => v :: s
  | VChoice.back => s ++ [v]
  | VChoice.invalid => s

/-- Full `add_fruit` of the vecdeque program: reject a name that is empty
after trimming, otherwise dispatch on the front/back answer. -/
def vdAddFruit (s : List String) (nameInput : String) (c : VChoice) : List String :=
  let fruitName := trimInput nameInput
  if fruitName.isEmpty then s
  else vdAddGo s fruitName c

/-- `remove_fruit` of the vecdeque program, returning the operation result
together with the sequence state after the call: empty sequence rejected
first, then pop front, pop back, or no-op on an invalid answer. -/
def vdRemoveFruitSt (s : List String) (c : VChoice) : Except FruitError String × List String :=
  if s.isEmpty then
    (Except.error FruitError.emptyCollection, s)
  else
    match c with
    | VChoice.front =>
      match popFront s with
      | some (x, rest) => (Except.ok x, rest)
      | none => (Except.error FruitError.emptyCollection, s)
    | VChoice.back =>
      match popBack s with
      | some (x, rest) => (Except.ok x, rest)
      | none => (Except.error FruitError.emptyCollection, s)
    | VChoice.invalid => (Except.error FruitError.invalidInput, s)

/-! ## Helper lemmas -/

theorem getD_len_append (l t : List String) (v : String) :
    (l ++ v :: t).getD l.length dStr = v := by
  induction l with
  | nil => rfl
  | cons x xs ih => simpa using ih

theorem collectToVec_aux (s acc : List String) :
    s.foldl (fun a x => a ++ [x]) acc = acc ++ s := by
  induction s generalizing acc with
  | nil => simp
  | cons x xs ih => simp [List.foldl_cons, ih]

theorem collectToVec_eq (s : List String) : collectToVec s = s := by
  simpa using collectToVec_aux s []

theorem popBack_eq (s : List String) (h : s ≠ []) :
    popBack s = some (s.getD (s.length - 1) dStr, s.take (s.length - 1)) := by
  induction s with
  | nil => exact absurd rfl h
  | cons x xs ih =>
    cases xs with
    | nil => rfl
    | cons y t =>
      have ih' := ih (by simp)
      simp only [popBack, ih']
      simp [List.getD]

theorem cons_set_perm (xs : List String) (k : Nat) (b x : String) (h : xs[k]? = some b) :
    List.Perm (b :: xs.set k x) (x :: xs) := by
  induction xs generalizing k with
  | nil => simp at h
  | cons y t ih =>
    cases k with
    | zero =>
      simp only [List.getElem?_cons_zero, Option.some.injEq] at h
      subst h
      simpa using List.Perm.swap x y t
    | succ m =>
      simp only [List.getElem?_cons_succ] at h
      simp only [List.set_cons_succ]
      have h1 : List.Perm (b :: y :: t.set m x) (y :: b :: t.set m x) :=
        List.Perm.swap y b _
      have h2 : List.Perm (y :: b :: t.set m x) (y :: x :: t) :=
        (ih m h).cons y
      have h3 : List.Perm (y :: x :: t) (x :: y :: t) := List.Perm.swap x y t
      exact h1.trans (h2.trans h3)

theorem swapAt_perm (l : List String) (i j : Nat) : List.Perm (swapAt l i j) l := by
  induction l generalizing i j with
  | nil => simp [swapAt]
  | cons x xs ih =>
    cases i with
    | zero =>
      cases j with
      | zero => simp [swapAt]
      | succ k =>
        cases hk : xs[k]? with
        | none => simp [swapAt, hk]
        | some b =>
          simp only [swapAt, List.getElem?_cons_zero, List.getElem?_cons_succ, hk,
            List.set_cons_zero, List.set_cons_succ]
          exact cons_set_perm xs k b x hk
    | succ m =>
      cases j with
      | zero =>
        cases hm : xs[m]? with
        | none => simp [swapAt, hm]
        | some a =>
          simp only [swapAt, List.getElem?_cons_zero, List.getElem?_cons_succ, hm,
            List.set_cons_zero, List.set_cons_succ]
          exact cons_set_perm xs m a x hm
      | succ k =>
        cases hm : xs[m]? with
        | none => simp [swapAt, hm]
        | some a =>
          cases hk : xs[k]? with
          | none => simp [swapAt, hm, hk]
          | some b =>
            have hxs : List.Perm (swapAt xs m k) xs := ih m k
            simp only [swapAt, List.getElem?_cons_succ, hm, hk, List.set_cons_succ] at hxs ⊢
            exact hxs.cons x

theorem shuffleGo_perm (f : Nat → Nat) (i : Nat) (l : List String) :
    List.Perm (shuffleGo f i l) l := by
  induction i generalizing l with
  | zero => exact List.Perm.refl l
  | succ n ih =>
    exact (ih _).trans (swapAt_perm l (n + 1) (f (n + 1) % (n + 1 + 1)))

theorem shuffleList_perm (f : Nat → Nat) (l : List String) :
    List.Perm (shuffleList f l) l := by
  unfold shuffleList
  rw [collectToVec_eq]
  exact shuffleGo_perm f (l.length - 1) l

theorem renderLoop_eq_commaSep (l : List String) (i len : Nat) (h : i + l.length = len) :
    renderLoop len i l = commaSep l := by
  induction l generalizing i with
  | nil => rfl
  | cons x xs ih =>
    cases xs with
    | nil =>
      have hi : i = len - 1 := by simp at h; omega
      simp [renderLoop, commaSep, hi]
    | cons y t =>
      have hne : i ≠ len - 1 := by simp at h; omega
      have ih' := ih (i + 1) (by simp at h ⊢; omega)
      show (if i ≠ len - 1 then "   " ++ x ++ ", " else x ++ "\n")
          ++ renderLoop len (i + 1) (y :: t) = commaSep (x :: y :: t)
      rw [if_pos hne, ih']
      rfl

/-! ## Claim theorems -/

/-- C2: for every sequence, value `v` and position `p`, the insert
operation places `v` at the clamped position `min p len` (`p = 0` front,
`p ≥ len` back, otherwise between the elements at `p - 1` and `p`),
shifting the rest back by one; the length grows by exactly 1 and the
element at the clamped position is `v`. -/
theorem addGo_inserts_at_clamped_position (s : List String) (v : String) (p : Nat) :
    addGo s v p = s.take (min p s.length) ++ v :: s.drop (min p s.length)
    ∧ (addGo s v p).length = s.length + 1
    ∧ (addGo s v p).getD (min p s.length) dStr = v := by
  have key : addGo s v p = s.take (min p s.length) ++ v :: s.drop (min p s.length) := by
    unfold addGo splitOff
    by_cases h0 : p = 0
    · subst h0; simp
    · rw [if_neg h0]
      by_cases h1 : s.length ≤ p
      · rw [if_pos h1, min_eq_right h1]
        simp [List.take_length, List.drop_length]
      · rw [if_neg h1]
        have hpl : p ≤ s.length := Nat.le_of_lt (Nat.lt_of_not_le h1)
        rw [min_eq_left hpl]
        simp
  refine ⟨key, ?_, ?_⟩
  · rw [key]
    simp only [List.length_append, List.length_cons, List.length_take, List.length_drop]
    omega
  · rw [key]
    have hl : (s.take (min p s.length)).length = min p s.length := by
      simp only [List.length_take]
      omega
    calc (s.take (min p s.length) ++ v :: s.drop (min p s.length)).getD (min p s.length) dStr
        = (s.take (min p s.length)
            ++ v :: s.drop (min p s.length)).getD (s.take (min p s.length)).length dStr := by
          rw [hl]
      _ = v := getD_len_append _ _ v

/-- C1: for every non-empty sequence and every parsed position `p`, the
remove operation removes and returns the element at the clamped position
`min p (len - 1)` (`p = 0` front, `p ≥ len - 1` back, otherwise index
`p`), and the length decreases by exactly 1. -/
theorem removeFruitSt_removes_clamped_position (s : List String) (p : Nat) (h : s ≠ []) :
    removeFruitSt s p
      = (Except.ok (s.getD (min p (s.length - 1)) dStr),
         s.take (min p (s.length - 1)) ++ s.drop (min p (s.length - 1) + 1))
    ∧ (removeFruitSt s p).2.length = s.length - 1 := by
  cases s with
  | nil => exact absurd rfl h
  | cons x xs =>
    have key : removeFruitSt (x :: xs) p
        = (Except.ok ((x :: xs).getD (min p xs.length) dStr),
           (x :: xs).take (min p xs.length) ++ (x :: xs).drop (min p xs.length + 1)) := by
      by_cases h0 : p = 0
      · subst h0
        simp [removeFruitSt, popFront]
      · by_cases h1 : (x :: xs).length - 1 ≤ p
        · have hmin : min p xs.length = xs.length := by
            simp only [List.length_cons] at h1
            omega
          have hpb := popBack_eq (x :: xs) (by simp)
          simp only [removeFruitSt, List.isEmpty_cons, if_neg h0, if_pos h1, hpb, hmin,
            Bool.false_eq_true, if_false]
          have hdrop : (x :: xs).drop (xs.length + 1) = [] := by
            rw [show xs.length + 1 = (x :: xs).length by simp]
            exact List.drop_length _
          rw [hdrop, List.append_nil]
          simp
        · have hlt : p < xs.length := by
            simp only [List.length_cons] at h1
            omega
          have hmin : min p xs.length = p := min_eq_left (Nat.le_of_lt hlt)
          have hd : (x :: xs).drop p = (x :: xs).getD p dStr :: (x :: xs).drop (p + 1) := by
            have hp' : p < (x :: xs).length := by simp; omega
            rw [List.drop_eq_getElem_cons hp', List.getD_eq_getElem _ _ hp']
          simp only [removeFruitSt, splitOff, List.isEmpty_cons, if_neg h0, if_neg h1,
            Bool.false_eq_true, if_false, hd, popFront, hmin]
    refine ⟨?_, ?_⟩
    · simpa using key
    · rw [key]
      simp only [List.length_append, List.length_take, List.length_drop, List.length_cons]
      omega

/-- C1 witness: removing at out-of-range position 7 from a concrete
three-element sequence pops the back element and shrinks the length to 2. -/
theorem removeFruitSt_removes_clamped_position_witness :
    removeFruitSt ["a", "b", "c"] 7 = (Except.ok ("c"), ["a", "b"])
    ∧ (removeFruitSt ["a", "b", "c"] 7).2.length = 2 := by
  have h := removeFruitSt_removes_clamped_position ["a", "b", "c"] 7 (by decide)
  exact ⟨h.1.trans (by rfl), h.2.trans (by rfl)⟩

/-- C9: inserting `v` at position 0 and then removing at position 0
returns the sequence to its prior state, and the removal returns `v`. -/
theorem insert_remove_front_roundtrip (s : List String) (v : String) :
    addGo s v 0 = v :: s ∧ removeFruitSt (addGo s v 0) 0 = (Except.ok v, s) :=
  ⟨rfl, rfl⟩

/-- C3: on the empty sequence both remove operations and both random-pick
operations fail with the empty-collection error, checked before anything
is removed, and the sequence stays empty. -/
theorem empty_sequence_ops_fail (p r : Nat) (c : VChoice) :
    removeFruitSt [] p = (Except.error FruitError.emptyCollection, [])
    ∧ pickRandomFruit [] r = (Except.error FruitError.emptyCollection, [])
    ∧ vdRemoveFruitSt [] c = (Except.error FruitError.emptyCollection, [])
    ∧ vdPickRandomFruit [] r = (Except.error FruitError.emptyCollection, []) :=
  ⟨rfl, rfl, rfl, rfl⟩

/-- C8: the random-pick operation of either program never mutates the
sequence: the state after the call is exactly the state before. -/
theorem pickRandom_preserves_sequence (s : List String) (r : Nat) :
    (pickRandomFruit s r).2 = s ∧ (vdPickRandomFruit s r).2 = s := by
  have hp : ∀ (t : List String) (q : Nat), (pickRandomFruit t q).2 = t := by
    intro t q
    unfold pickRandomFruit
    by_cases h : t.isEmpty
    · simp [h]
    · rcases hc : chooseElem (collectToVec t) q with _ | y <;> simp [h, hc]
  have hvd : vdPickRandomFruit s r = pickRandomFruit s r := rfl
  exact ⟨hp s r, by rw [hvd]; exact hp s r⟩

/-- C4: the shuffle preserves the multiset of elements (same elements,
same count), and on a sequence of 0 or 1 elements it changes nothing. -/
theorem shuffleList_preserves_multiset (f : Nat → Nat) (l : List String) :
    ((shuffleList f l : List String) : Multiset String) = (l : Multiset String)
    ∧ (l.length ≤ 1 → shuffleList f l = l) := by
  constructor
  · exact Multiset.coe_eq_coe.mpr (shuffleList_perm f l)
  · intro h
    have h0 : l.length - 1 = 0 := by omega
    unfold shuffleList
    rw [h0, collectToVec_eq]
    rfl

/-- C4 witness: a concrete shuffle of a singleton keeps the multiset and
the list unchanged. -/
theorem shuffleList_preserves_multiset_witness :
    ((shuffleList (fun _ => 0) ["a"] : List String) : Multiset String)
      = ((["a"] : List String) : Multiset String)
    ∧ shuffleList (fun _ => 0) ["a"] = ["a"] := by
  have h := shuffleList_preserves_multiset (fun _ => 0) ["a"]
  exact ⟨h.1, h.2 (by decide)⟩

/-- C7: on a non-empty sequence the random pick returns the element at
the index drawn by the random source, without changing the sequence, and
for every position `j < n` exactly one of the `n` equally likely draws
selects `j` — probability `1 / n` for each position. -/
theorem pickRandom_uniform (s : List String) (r j : Nat) (h : s ≠ []) (hj : j < s.length) :
    pickRandomFruit s r = (Except.ok (s.getD (pickIndex s.length r) dStr), s)
    ∧ ((Finset.range s.length).filter (fun t => pickIndex s.length t = j)).card = 1 := by
  constructor
  · have hne : s.isEmpty = false := by
      cases s
      · exact absurd rfl h
      · rfl
    simp [pickRandomFruit, chooseElem, collectToVec_eq, hne]
  · have hset : (Finset.range s.length).filter (fun t => pickIndex s.length t = j) = {j} := by
      ext t
      simp only [Finset.mem_filter, Finset.mem_range, Finset.mem_singleton, pickIndex]
      constructor
      · rintro ⟨ht, hmod⟩
        rwa [Nat.mod_eq_of_lt ht] at hmod
      · rintro rfl
        exact ⟨hj, Nat.mod_eq_of_lt hj⟩
    rw [hset]
    exact Finset.card_singleton j

/-- C7 witness: picking from a concrete two-element sequence with draw 3
returns the element at index 1 and leaves the list unchanged; exactly one
of the two possible draws selects position 1. -/
theorem pickRandom_uniform_witness :
    pickRandomFruit ["a", "b"] 3 = (Except.ok ("b"), ["a", "b"])
    ∧ ((Finset.range 2).filter (fun t => pickIndex 2 t = 1)).card = 1 := by
  have h := pickRandom_uniform ["a", "b"] 3 1 (by decide) (by decide)
  exact ⟨h.1.trans (by rfl), h.2⟩

/-- C10: when the entered fruit name is empty after trimming whitespace,
the add operation of either program leaves the sequence unchanged. -/
theorem addFruit_rejects_blank_name (s : List String) (nameInput : String)
    (posInput : Option Nat) (c : VChoice) (h : trimInput nameInput = "") :
    addFruit s nameInput posInput = s ∧ vdAddFruit s nameInput c = s := by
  have hb : ∀ t : String, t = "" → t.isEmpty = true := by
    intro t ht
    subst ht
    rfl
  constructor
  · simp [addFruit, hb _ h]
  · simp [vdAddFruit, hb _ h]

/-- C10 witness: an all-whitespace name is rejected by both programs on a
concrete sequence. -/
theorem addFruit_rejects_blank_name_witness :
    addFruit ["a"] ("   ") (some 1) = ["a"]
    ∧ vdAddFruit ["a"] ("   ") VChoice.front = ["a"] :=
  addFruit_rejects_blank_name ["a"] ("   ") (some 1) VChoice.front (by rfl)

/-- C5 counterexample: in the vecdeque program no menu answer can insert
into the middle of a two-element sequence, and no menu answer can remove
the middle element of a three-element sequence — only the ends are
reachable, so the claim that both programs support arbitrary-position
insertion and removal is false. -/
theorem vd_no_middle_insert_or_remove :
    (vdAddGo ["a", "b"] ("x") VChoice.front ≠ ["a", "x", "b"]
      ∧ vdAddGo ["a", "b"] ("x") VChoice.back ≠ ["a", "x", "b"]
      ∧ vdAddGo ["a", "b"] ("x") VChoice.invalid ≠ ["a", "x", "b"])
    ∧ ((vdRemoveFruitSt ["a", "b", "c"] VChoice.front).2 ≠ ["a", "c"]
      ∧ (vdRemoveFruitSt ["a", "b", "c"] VChoice.back).2 ≠ ["a", "c"]
      ∧ (vdRemoveFruitSt ["a", "b", "c"] VChoice.invalid).2 ≠ ["a", "c"]) := by
  decide

/-- C5 amended: the linked-list program inserts and removes at any interior
position, while the vecdeque program only ever pushes or pops at the front
or the back (or leaves the sequence unchanged). -/
theorem ll_any_position_vd_ends_only (s : List String) (v : String) (p : Nat) (c : VChoice)
    (h1 : 0 < p) (h2 : p + 1 < s.length) :
    addGo s v p = s.take p ++ v :: s.drop p
    ∧ (removeFruitSt s p).2 = s.take p ++ s.drop (p + 1)
    ∧ (vdAddGo s v c = v :: s ∨ vdAddGo s v c = s ++ [v] ∨ vdAddGo s v c = s)
    ∧ ((vdRemoveFruitSt s c).2 = s.tail ∨ (vdRemoveFruitSt s c).2 = s.dropLast
        ∨ (vdRemoveFruitSt s c).2 = s) := by
  refine ⟨?_, ?_, ?_, ?_⟩
  · unfold addGo splitOff
    rw [if_neg (by omega), if_neg (by omega)]
    simp
  · cases s with
    | nil => simp at h2
    | cons x xs =>
      have h0 : ¬ p = 0 := by omega
      have h1' : ¬ ((x :: xs).length - 1 ≤ p) := by simp at h2 ⊢; omega
      have hp' : p < (x :: xs).length := by simp at h2 ⊢; omega
      have hd : (x :: xs).drop p = (x :: xs).getD p dStr :: (x :: xs).drop (p + 1) := by
        rw [List.drop_eq_getElem_cons hp', List.getD_eq_getElem _ _ hp']
      simp only [removeFruitSt, splitOff, List.isEmpty_cons, Bool.false_eq_true, if_false,
        if_neg h0, if_neg h1', hd, popFront]
  · cases c with
    | front => exact Or.inl rfl
    | back => exact Or.inr (Or.inl rfl)
    | invalid => exact Or.inr (Or.inr rfl)
  · cases s with
    | nil => simp at h2
    | cons x xs =>
      cases c with
      | front => exact Or.inl rfl
      | back =>
        refine Or.inr (Or.inl ?_)
        have hpb := popBack_eq (x :: xs) (by simp)
        simp only [vdRemoveFruitSt, List.isEmpty_cons, Bool.false_eq_true, if_false, hpb]
        rw [List.dropLast_eq_take]
      | invalid => exact Or.inr (Or.inr rfl)

/-- C5 amended witness: at position 1 of a concrete three-element sequence
the linked-list program inserts and removes in the middle, while the
vecdeque back answer only touches the back. -/
theorem ll_any_position_vd_ends_only_witness :
    addGo ["a", "b", "c"] ("x") 1 = ["a", "x", "b", "c"]
    ∧ (removeFruitSt ["a", "b", "c"] 1).2 = ["a", "c"]
    ∧ (vdAddGo ["a", "b", "c"] ("x") VChoice.back = "x" :: ["a", "b", "c"]
        ∨ vdAddGo ["a", "b", "c"] ("x") VChoice.back = ["a", "b", "c"] ++ ["x"]
        ∨ vdAddGo ["a", "b", "c"] ("x") VChoice.back = ["a", "b", "c"])
    ∧ ((vdRemoveFruitSt ["a", "b", "c"] VChoice.back).2 = ["a", "b", "c"].tail
        ∨ (vdRemoveFruitSt ["a", "b", "c"] VChoice.back).2 = ["a", "b", "c"].dropLast
        ∨ (vdRemoveFruitSt ["a", "b", "c"] VChoice.back).2 = ["a", "b", "c"]) := by
  have h := ll_any_position_vd_ends_only ["a", "b", "c"] ("x") 1 VChoice.back
    (by decide) (by decide)
  exact ⟨h.1.trans (by rfl), h.2.1.trans (by rfl), h.2.2.1, h.2.2.2⟩

/-- C6 counterexample: on the one-element sequence the vecdeque display
renders no trailing count line, so the claim that the display of every
program appends a trailing count to the comma-separated list is false. -/
theorem vd_render_lacks_count :
    printFruitSaladVD ["Arbutus"]
      ≠ commaSep ["Arbutus"] ++ "   Total fruits: " ++ toString (1 : Nat) ++ "\n" := by
  decide

/-- C6 amended: on a non-empty sequence the linked-list display renders
the comma-separated element list followed by a trailing count line, while
the vecdeque display renders the comma-separated list only; both render
the explicit empty marker when the length is 0. -/
theorem render_formats (s : List String) (h : s ≠ []) :
    printFruitSaladLL s = commaSep s ++ "   Total fruits: " ++ toString s.length ++ "\n"
    ∧ printFruitSaladVD s = commaSep s
    ∧ printFruitSaladLL [] = "   (empty)\n"
    ∧ printFruitSaladVD [] = "   (empty)\n" := by
  have hr : renderLoop s.length 0 s = commaSep s :=
    renderLoop_eq_commaSep s 0 s.length (by simp)
  have hne : s.isEmpty = false := by
    cases s
    · exact absurd rfl h
    · rfl
  refine ⟨?_, ?_, rfl, rfl⟩
  · simp only [printFruitSaladLL, hne, Bool.false_eq_true, if_false, hr]
  · simp only [printFruitSaladVD, hne, Bool.false_eq_true, if_false, hr]

/-- C6 amended witness: concrete renderings of a two-element sequence by
both programs, and of the empty sequence. -/
theorem render_formats_witness :
    printFruitSaladLL ["Fig", "Loquat"] = "   Fig, Loquat\n   Total fruits: 2\n"
    ∧ printFruitSaladVD ["Fig", "Loquat"] = "   Fig, Loquat\n"
    ∧ printFruitSaladLL [] = "   (empty)\n"
    ∧ printFruitSaladVD [] = "   (empty)\n" := by
  have h := render_formats ["Fig", "Loquat"] (by decide)
  exact ⟨h.1.trans (by rfl), h.2.1.trans (by rfl), h.2.2.1, h.2.2.2⟩


end FruitSalad
